import Mathlib

/-!
# Verification of the Knesset data-access layer (src/utils/knesset_db.py)

This file gives a shallow embedding of the pure record-processing logic of
`knesset_db.py` and proves (or refutes) the specified properties of the name
matcher, the profile lookup, the faction resolver, the roster/party queries,
the committee-roster merger, the document ranker and the bill-text extractor.

Modelling conventions:
* Python strings are `Str := List Char` (sequences of code points);
  `str.strip` / `str.lower` / substring containment (`in`) / lexicographic
  comparison are modelled character-wise below.
* Python dicts delivered by the upstream APIs are structures whose fields are
  exactly the keys the code reads; a key the code reads with `.get` is a field
  with a default, a key that may be absent at runtime is an `Option` field
  (`none` models the key being absent, so a bare `d[k]` access on it models a
  `KeyError`).
* Network fetches and PDF extraction are external collaborators: the embedded
  functions take the already-fetched rows (or an extraction oracle) as
  arguments.
* In-place mutation of cached records is modelled by store passing: the
  function returns the updated member list alongside its result.
-/

/-- Python strings as lists of code points. -/
abbrev Str := List Char

/-- Removes trailing whitespace (the right half of Python `str.strip`). -/
def dropTrailingWS : Str → Str
  | [] => []
  | c :: cs =>
    let r := dropTrailingWS cs
    if r.isEmpty then (if c.isWhitespace then [] else [c]) else c :: r

/-- Python `str.strip()`: drop leading and trailing whitespace. -/
def pyStrip (s : Str) : Str := dropTrailingWS (s.dropWhile Char.isWhitespace)

/-- Python `str.lower()`, modelled character-wise. -/
def lowerStr (s : Str) : Str := s.map Char.toLower

/-- Boolean test that the first list is a prefix of the second. -/
def isPrefixB : Str → Str → Bool
  | [], _ => true
  | _ :: _, [] => false
  | a :: as, b :: bs => a == b && isPrefixB as bs

/-- Python substring containment: `isSubstr n h` models Python `n in h`. -/
def isSubstr (needle : Str) : Str → Bool
  | [] => needle.isEmpty
  | c :: t => isPrefixB needle (c :: t) || isSubstr needle t

/-- `needle` occurs contiguously inside `hay` (the propositional counterpart
of `isSubstr`). -/
def SubstrOf (needle hay : Str) : Prop := ∃ a b, hay = a ++ needle ++ b

/-- Python lexicographic string comparison `a < b` (by code point). -/
def strLt : Str → Str → Bool
  | [], [] => false
  | [], _ :: _ => true
  | _ :: _, [] => false
  | a :: as, b :: bs => decide (a < b) || (decide (a = b) && strLt as bs)

/-! ## Data model

Member records as delivered by the oknesset `/members` endpoint.  The module
docstring of `knesset_db.py` documents the record keys
(`mk_individual_id`, `mk_individual_first_name`, `mk_individual_name`,
`PersonID`, `IsCurrent`, `altnames`, `factions`, `committee_positions`,
`faction_chairpersons`, `govministries`); fields the embedded functions never
read are omitted.  `last_name` and `full_name` are keys that `get_all_mks`
resp. `get_mk_profile` read although they are not part of the documented
record shape: they are `Option` fields, `none` modelling an absent key.
`multiple_matches` / `other_matches` are the keys `get_mk_profile` writes
into the record. -/

/-- One entry of a member's `factions` list:
`{faction_id, faction_name, start_date, finish_date, knesset}`
(only the keys the code reads are modelled). -/
structure Faction where
  faction_name : Str := []
  start_date : Option Str := none
  knesset : Option Int := none
deriving DecidableEq

/-- A member record (Python dict).  A `none` in `factions` models a null
entry (the code guards with `if f`). -/
structure MK where
  mk_individual_first_name : Str := []
  mk_individual_name : Str := []
  altnames : List Str := []
  factions : List (Option Faction) := []
  last_name : Option Str := none
  full_name : Option Str := none
  multiple_matches : Option Bool := none
  other_matches : Option (List Str) := none
deriving DecidableEq

/-- The "first last" full-name rendering of §3's data model:
`f"{first} {last}".strip()` as built in `_name_matches`. -/
def mkFullName (mk : MK) : Str :=
  pyStrip (mk.mk_individual_first_name ++ ' ' :: mk.mk_individual_name)

/-- Candidate names built by `_name_matches`: trimmed "first last",
trimmed "last first", then the altnames. -/
def mkCandidates (mk : MK) : List Str :=
  mkFullName mk ::
    pyStrip (mk.mk_individual_name ++ ' ' :: mk.mk_individual_first_name) ::
    mk.altnames

/-- `_name_matches(mk, query)` from `knesset_db.py` lines 89-106: trim the
query; a non-empty candidate matches on exact trimmed equality or on
case-folded substring containment in either direction.  (The Python loop with
early `return True` is the same Boolean as `List.any`.) -/
def _name_matches (mk : MK) (query : Str) : Bool :=
  let q := pyStrip query
  (mkCandidates mk).any fun name =>
    !name.isEmpty &&
      (pyStrip name == q || isSubstr (lowerStr q) (lowerStr name) ||
        isSubstr (lowerStr name) (lowerStr q))

/-- `get_mk_by_name` (lines 144-156): filter current + former members by
`_name_matches`.  The `knesset_num` parameter is accepted and ignored,
exactly as in the source. -/
def get_mk_by_name (current former : List MK) (name : Str)
    (knesset_num : Int) : List MK :=
  (current ++ former).filter fun mk => _name_matches mk name

/-- The matching condition of claim C1, written from the spec's words: some
non-empty candidate equals the trimmed query exactly, or contains the
lower-cased trimmed query as a substring, or is contained in it. -/
def NameMatchSpec (mk : MK) (query : Str) : Prop :=
  ∃ name, name ∈ mkCandidates mk ∧ name ≠ [] ∧
    (name = pyStrip query ∨
      SubstrOf (lowerStr (pyStrip query)) (lowerStr name) ∨
      SubstrOf (lowerStr name) (lowerStr (pyStrip query)))

/-! ## Generic stable insertion sort

`sortS le` models Python's stable `list.sort`: each successive element is
inserted into the already-sorted accumulator after every element `y` with
`le y x` (so elements comparing equal keep their original relative order).
Python `sort(key=k)` is `sortS (fun a b => k a ≤ k b)` and
`sort(key=k, reverse=True)` is `sortS (fun a b => k b ≤ k a)`. -/

def insertS (le : α → α → Bool) (x : α) : List α → List α
  | [] => [x]
  | y :: ys => if le y x then y :: insertS le x ys else x :: y :: ys

def sortS (le : α → α → Bool) (l : List α) : List α :=
  l.foldl (fun acc x => insertS le x acc) []

/-- Python `max(l, key=k)`: the first element attaining the maximal key
(`max` keeps the current element unless a strictly greater key appears). -/
def pyMaxBy (key : α → Str) : List α → Option α
  | [] => none
  | x :: xs =>
    match pyMaxBy key xs with
    | none => some x
    | some m => if strLt (key x) (key m) then some m else some x

/-! ## Faction resolution -/

/-- The comprehension `[f for f in factions if f and f.get("knesset") == kn]`
(line 76).  `kn` is `Option Int` because Python compares with `==`, under
which a missing `knesset` key equals a `None` argument. -/
def relevantFactions (factions : List (Option Faction)) (kn : Option Int) :
    List Faction :=
  factions.filterMap fun of =>
    match of with
    | none => none
    | some f => if f.knesset == kn then some f else none

/-- The sort key `f.get("start_date") or ""` (line 79): a missing or empty
start date becomes the empty string. -/
def startKey (f : Faction) : Str := f.start_date.getD []

/-- `_most_recent_faction` (lines 74-79): among the factions of the requested
Knesset, the one with the lexicographically greatest start date (Python `max`,
so the first such element on ties); `none` when no faction qualifies. -/
def _most_recent_faction (factions : List (Option Faction))
    (knesset_num : Option Int) : Option Faction :=
  pyMaxBy startKey (relevantFactions factions knesset_num)

/-! ## Roster and party tally -/

/-- `_get_all_members_raw` (lines 56-71): current + former members, filtered
to those with at least one faction in the requested Knesset (no filter when
`knesset_num is None`). -/
def _get_all_members_raw (current former : List MK)
    (knesset_num : Option Int) : List MK :=
  match knesset_num with
  | none => current ++ former
  | some k => (current ++ former).filter fun mk =>
      !(relevantFactions mk.factions (some k)).isEmpty

/-- The sort key `x.get("last_name", "")` of `get_all_mks` (line 118). -/
def lastNameKey (mk : MK) : Str := mk.last_name.getD []

/-- `get_all_mks` (lines 111-119): the raw members of the Knesset, sorted
(stably, ascending) by the `last_name` key. -/
def get_all_mks (current former : List MK) (knesset_num : Option Int) :
    List MK :=
  sortS (fun a b => !(strLt (lastNameKey b) (lastNameKey a)))
    (_get_all_members_raw current former knesset_num)

/-- One entry of `get_all_parties`' result: `{"party": ..., "mk_count": ...}`. -/
structure Party where
  party : Str
  mk_count : Nat
deriving DecidableEq

/-- The faction name a member contributes to the tally (lines 130-137):
the stripped name of the member's most recent faction, if any. -/
def resolvedPartyName (kn : Option Int) (mk : MK) : Option Str :=
  match _most_recent_faction (mk.factions.filter Option.isSome) kn with
  | none => none
  | some f => some (pyStrip f.faction_name)

/-- `counts[name] = counts.get(name, 0) + 1` on an insertion-ordered dict:
bump the existing key in place or append a new one. -/
def bump : List (Str × Nat) → Str → List (Str × Nat)
  | [], name => [(name, 1)]
  | (n, c) :: rest, name =>
    if n = name then (n, c + 1) :: rest else (n, c) :: bump rest name

/-- One member's contribution to the `counts` dict (lines 130-137). -/
def countStep (kn : Option Int) (counts : List (Str × Nat)) (mk : MK) :
    List (Str × Nat) :=
  match resolvedPartyName kn mk with
  | none => counts
  | some name => bump counts name

/-- The `counts` dict of `get_all_parties` after the member loop
(lines 129-137), as an insertion-ordered association list. -/
def partyCounts (members : List MK) (kn : Option Int) : List (Str × Nat) :=
  members.foldl (countStep kn) []

/-- `get_all_parties` (lines 122-141): the counts dict rendered to records
and stably sorted by count descending (`reverse=True`). -/
def get_all_parties (current former : List MK) (knesset_num : Option Int) :
    List Party :=
  sortS (fun a b => decide (b.mk_count ≤ a.mk_count))
    ((partyCounts (_get_all_members_raw current former knesset_num)
        knesset_num).map fun p => { party := p.1, mk_count := p.2 })

/-- Append a string unless already present (one step of first-occurrence
collection). -/
def occStep (acc : List Str) (n : Str) : List Str :=
  if n ∈ acc then acc else acc ++ [n]

/-- The distinct strings of `l` in order of first occurrence (used to state
the tie-break order of the party tally). -/
def firstOccurrences (l : List Str) : List Str :=
  l.foldl occStep []

/-! ## Profile lookup (with the cache mutation made explicit)

`get_mk_profile` (lines 225-237) writes `multiple_matches` (and possibly
`other_matches`) into `matches[0]`, which is the very dict object held in the
memoized member lists; the embedding therefore returns the updated member
list alongside the result.  `[m["full_name"] for m in matches[1:]]` indexes a
key that the documented member records do not carry; an absent key is a
`KeyError`, modelled by `Except.error`. -/

/-- Replace the first record matching the query (the object Python's
`matches[0]` aliases) by `m`. -/
def updateFirstMatch (q : Str) (m : MK) : List MK → List MK
  | [] => []
  | x :: xs => if _name_matches x q then m :: xs else x :: updateFirstMatch q m xs

/-- `[m["full_name"] for m in matches]`: `none` models the `KeyError` raised
at the first record lacking the key. -/
def allFullNames : List MK → Option (List Str)
  | [] => some []
  | m :: ms =>
    match m.full_name with
    | none => none
    | some fn =>
      match allFullNames ms with
      | none => none
      | some rest => some (fn :: rest)

/-- `get_mk_profile` (lines 225-237), store-passing: the first component is
the returned profile (or the raised `KeyError`), the second the member list
after the call (reflecting the in-place writes to `matches[0]`). -/
def get_mk_profile_run (current former : List MK) (name : Str)
    (knesset_num : Int) : Except String (Option MK) × List MK :=
  let members := current ++ former
  match get_mk_by_name current former name knesset_num with
  | [] => (Except.ok none, members)
  | m :: rest =>
    let m1 : MK := { m with multiple_matches := some (!rest.isEmpty) }
    if rest.isEmpty then (Except.ok (some m1), updateFirstMatch name m1 members)
    else
      match allFullNames rest with
      | none => (Except.error "KeyError: full_name", updateFirstMatch name m1 members)
      | some names =>
        let m2 : MK := { m1 with other_matches := some names }
        (Except.ok (some m2), updateFirstMatch name m2 members)

/-! ## Committee roster -/

/-- Nested `KNS_Person` record (keys the code reads, with `.get` defaults). -/
structure KPerson where
  FirstName : Str := []
  LastName : Str := []
deriving DecidableEq

/-- Nested `KNS_Position` record. -/
structure KPosition where
  Description : Option Str := none
deriving DecidableEq

/-- One `KNS_PersonToPosition` row as consumed by
`get_active_committee_members`. -/
structure PTPRow where
  KNS_Person : Option KPerson := none
  KNS_Position : Option KPosition := none
  PersonID : Option Int := none
  DutyDesc : Option Str := none
deriving DecidableEq

/-- One merged roster entry (value of the `seen` dict). -/
structure CMember where
  mk_id : Option Int
  full_name : Str
  duty_desc : Str
deriving DecidableEq

/-- Python `a or b` for strings: `a` unless it is `None` or empty. -/
def pyOrStr (a : Option Str) (b : Str) : Str :=
  match a with
  | none => b
  | some s => if s.isEmpty then b else s

/-- `row.get("DutyDesc") or position.get("Description") or ""` (line 210). -/
def rowDuty (row : PTPRow) : Str :=
  pyOrStr row.DutyDesc (pyOrStr (row.KNS_Position.getD {}).Description [])

/-- `f"{person.get('FirstName','')} {person.get('LastName','')}".strip()`. -/
def rowFullName (row : PTPRow) : Str :=
  pyStrip ((row.KNS_Person.getD {}).FirstName ++
    ' ' :: (row.KNS_Person.getD {}).LastName)

/-- The acting/deputy marker the code filters on (line 212). -/
def actingMark : Str := "מ\"מ".data

/-- The chair-designation marker (line 219). -/
def chairMark : Str := "יו\"ר".data

/-- One iteration of the row loop (lines 204-220): skip acting-duty rows;
first sighting of a person id inserts an entry; a later chair-duty row
upgrades a non-chair entry.  (The `seen` dict is an insertion-ordered
association list keyed by `PersonID`; updating via `map` touches exactly the
one entry with that key.) -/
def stepRow (seen : List CMember) (row : PTPRow) : List CMember :=
  let duty := rowDuty row
  if isSubstr actingMark duty then seen
  else if seen.any (fun e => e.mk_id == row.PersonID) then
    seen.map fun e =>
      if e.mk_id == row.PersonID &&
          (isSubstr chairMark duty && !isSubstr chairMark e.duty_desc) then
        { e with duty_desc := duty }
      else e
  else
    seen ++ [{ mk_id := row.PersonID, full_name := rowFullName row,
               duty_desc := duty }]

/-- `get_active_committee_members` (lines 181-222), applied to the fetched
rows: fold the rows through `seen`, then sort the values by full name. -/
def get_active_committee_members (rows : List PTPRow) : List CMember :=
  sortS (fun a b => !(strLt b.full_name a.full_name)) (rows.foldl stepRow [])

/-! ## Bill documents and bill text -/

/-- `_DOC_GROUP_PRIORITY` (lines 32-37): second/third-reading text,
first-reading text, consolidated-law text, official-gazette publication. -/
def _DOC_GROUP_PRIORITY : List Str :=
  ["הצעת חוק לקריאה השנייה והשלישית".data,
   "הצעת חוק לקריאה הראשונה".data,
   "טקסט חוק מאוחד".data,
   "חוק - פרסום ברשומות".data]

/-- `list.index` returning the list length when absent (the
`try/except ValueError` of `_priority`). -/
def prioIndex : List Str → Str → Nat
  | [], _ => 0
  | p :: ps, d => if p = d then 0 else prioIndex ps d + 1

/-- One `KNS_DocumentBill` row (keys the code reads). -/
structure DocRow where
  Id : Int
  GroupTypeDesc : Option Str := none
  ApplicationDesc : Option Str := none
  FilePath : Option Str := none
deriving DecidableEq

/-- `_priority` (lines 304-309): index in the fixed priority list, or its
length (4) for an unknown label; a missing label reads as `""`. -/
def _priority (doc : DocRow) : Nat :=
  prioIndex _DOC_GROUP_PRIORITY (doc.GroupTypeDesc.getD [])

/-- `_fix_file_path` (lines 82-84): backslashes become forward slashes. -/
def _fix_file_path (path : Str) : Str :=
  path.map fun c => if c = '\\' then '/' else c

/-- `doc.get("FilePath")` is truthy: present and non-empty. -/
def pathTruthy (doc : DocRow) : Bool :=
  match doc.FilePath with
  | none => false
  | some s => !s.isEmpty

/-- One entry of `get_bill_documents`' result. -/
structure DocOut where
  doc_id : Int
  bill_id : Int
  group : Option Str
  format : Option Str
  url : Str
deriving DecidableEq

/-- The output record built for a retained row (lines 312-322). -/
def toDocOut (bill_id : Int) (doc : DocRow) : DocOut :=
  { doc_id := doc.Id, bill_id := bill_id, group := doc.GroupTypeDesc,
    format := doc.ApplicationDesc, url := _fix_file_path (doc.FilePath.getD []) }

/-- `get_bill_documents` (lines 290-322), applied to the fetched rows:
stable sort by `_priority`, drop rows without a usable file path, normalize. -/
def get_bill_documents (bill_id : Int) (docs : List DocRow) : List DocOut :=
  ((sortS (fun a b => decide (_priority a ≤ _priority b)) docs).filter
      pathTruthy).map (toDocOut bill_id)

/-- The priority of an output entry (recomputed from its group label). -/
def outPriority (d : DocOut) : Nat := prioIndex _DOC_GROUP_PRIORITY (d.group.getD [])

/-- The record `get_bill_text` returns. -/
structure BillText where
  bill_id : Int
  doc_id : Int
  group : Option Str
  url : Str
  text : Str
  truncated : Bool
deriving DecidableEq

/-- `"\n".join(pages)`. -/
def joinNL : List Str → Str
  | [] => []
  | [s] => s
  | s :: rest => s ++ '\n' :: joinNL rest

/-- `doc["format"] in ("PDF", "PPT")` (line 337). -/
def fmtOk (doc : DocOut) : Bool :=
  doc.format == some "PDF".data || doc.format == some "PPT".data

/-- The network + PDF part of one loop body of `get_bill_text`
(lines 339-352), against an extraction oracle: `fetch doc = none` models any
raised exception (network failure, unopenable bytes); `some pageResults`
models an opened document whose pages each extracted to text or to `None`.
Truthy page texts are joined with newlines and stripped; an empty result
means "try the next document". -/
def docExtract (fetch : DocOut → Option (List (Option Str))) (doc : DocOut) :
    Option Str :=
  match fetch doc with
  | none => none
  | some pageResults =>
    let pages := (pageResults.filterMap id).filter fun t => !t.isEmpty
    let full := pyStrip (joinNL pages)
    if full.isEmpty then none else some full

/-- The document loop of `get_bill_text` (lines 336-366). -/
def billTextLoop (bill_id : Int) (fetch : DocOut → Option (List (Option Str)))
    (max_chars : Nat) : List DocOut → Option BillText
  | [] => none
  | doc :: rest =>
    if !fmtOk doc then billTextLoop bill_id fetch max_chars rest
    else
      match docExtract fetch doc with
      | none => billTextLoop bill_id fetch max_chars rest
      | some full =>
        some { bill_id := bill_id, doc_id := doc.doc_id, group := doc.group,
               url := doc.url, text := full.take max_chars,
               truncated := decide (max_chars < full.length) }

/-- `get_bill_text` (lines 325-366): rank the bill's documents, then try them
in order until one yields non-empty text; `full_text[:max_chars]` is the
returned text and `truncated` records whether anything was cut. -/
def get_bill_text (bill_id : Int) (docRows : List DocRow)
    (fetch : DocOut → Option (List (Option Str))) (max_chars : Nat) :
    Option BillText :=
  billTextLoop bill_id fetch max_chars (get_bill_documents bill_id docRows)

/-! ## Lemmas -/
theorem isPrefixB_iff (n h : Str) : isPrefixB n h = true ↔ ∃ t, h = n ++ t := by
  induction n generalizing h with
  | nil => simp [isPrefixB]
  | cons a as ih =>
    cases h with
    | nil => simp [isPrefixB]
    | cons b bs =>
      simp only [isPrefixB, Bool.and_eq_true, beq_iff_eq, ih, List.cons_append,
        List.cons.injEq]
      constructor
      · rintro ⟨rfl, t, rfl⟩
        exact ⟨t, rfl, rfl⟩
      · rintro ⟨t, rfl, rfl⟩
        exact ⟨rfl, t, rfl⟩

theorem isSubstr_iff (n h : Str) : isSubstr n h = true ↔ SubstrOf n h := by
  induction h with
  | nil =>
    simp only [isSubstr, List.isEmpty_iff, SubstrOf]
    constructor
    · rintro rfl
      exact ⟨[], [], rfl⟩
    · rintro ⟨a, b, hab⟩
      rcases List.append_eq_nil.mp (List.append_eq_nil.mp hab.symm).1 with ⟨_, h2⟩
      exact h2
  | cons c t ih =>
    simp only [isSubstr, Bool.or_eq_true, isPrefixB_iff, ih]
    constructor
    · rintro (⟨u, hu⟩ | ⟨a, b, rfl⟩)
      · exact ⟨[], u, by simpa using hu⟩
      · exact ⟨c :: a, b, rfl⟩
    · rintro ⟨a, b, hab⟩
      cases a with
      | nil => exact Or.inl ⟨b, by simpa using hab⟩
      | cons x xs =>
        simp only [List.cons_append, List.cons.injEq] at hab
        exact Or.inr ⟨xs, b, hab.2⟩

theorem SubstrOf.trans {a b c : Str} (h1 : SubstrOf a b) (h2 : SubstrOf b c) :
    SubstrOf a c := by
  rcases h1 with ⟨u, v, rfl⟩
  rcases h2 with ⟨x, y, rfl⟩
  exact ⟨x ++ u, v ++ y, by simp⟩

theorem SubstrOf.map (f : Char → Char) {n h : Str} (hs : SubstrOf n h) :
    SubstrOf (n.map f) (h.map f) := by
  rcases hs with ⟨a, b, rfl⟩
  exact ⟨a.map f, b.map f, by simp⟩

theorem SubstrOf.lower {n h : Str} (hs : SubstrOf n h) :
    SubstrOf (lowerStr n) (lowerStr h) := hs.map Char.toLower

/-- `dropTrailingWS s` is a prefix of `s`. -/
theorem dropTrailingWS_pre (s : Str) : ∃ b, s = dropTrailingWS s ++ b := by
  induction s with
  | nil => exact ⟨[], rfl⟩
  | cons c cs ih =>
    rcases ih with ⟨b, hb⟩
    by_cases hr : (dropTrailingWS cs).isEmpty
    · by_cases hw : c.isWhitespace
      · exact ⟨c :: cs, by simp [dropTrailingWS, hr, hw]⟩
      · exact ⟨cs, by simp [dropTrailingWS, hr, hw]⟩
    · exact ⟨b, by simp only [dropTrailingWS, if_neg hr]; rw [List.cons_append, ← hb]⟩

/-- `dropTrailingWS` keeps the head of a nonempty list (or returns `[]`). -/
theorem dropTrailingWS_head (c : Char) (cs : Str) :
    dropTrailingWS (c :: cs) = [] ∨ ∃ r, dropTrailingWS (c :: cs) = c :: r := by
  by_cases hr : (dropTrailingWS cs).isEmpty
  · by_cases hw : c.isWhitespace
    · exact Or.inl (by simp [dropTrailingWS, hr, hw])
    · exact Or.inr ⟨[], by simp [dropTrailingWS, hr, hw]⟩
  · exact Or.inr ⟨dropTrailingWS cs, by simp [dropTrailingWS, hr]⟩

theorem dropTrailingWS_idem (s : Str) :
    dropTrailingWS (dropTrailingWS s) = dropTrailingWS s := by
  induction s with
  | nil => rfl
  | cons c cs ih =>
    by_cases hr : (dropTrailingWS cs).isEmpty
    · by_cases hw : c.isWhitespace
      · simp [dropTrailingWS, hr, hw]
      · simp [dropTrailingWS, hr, hw]
    · have hcons : dropTrailingWS (c :: cs) = c :: dropTrailingWS cs := by
        simp [dropTrailingWS, hr]
      rw [hcons]
      simp [dropTrailingWS, ih, hr]

theorem dropWhile_ws_of_head {s : Str}
    (h : s = [] ∨ ∃ a t, s = a :: t ∧ a.isWhitespace = false) :
    s.dropWhile Char.isWhitespace = s := by
  rcases h with rfl | ⟨a, t, rfl, ha⟩
  · rfl
  · simp [List.dropWhile_cons, ha]

theorem pyStrip_head (s : Str) :
    pyStrip s = [] ∨ ∃ a t, pyStrip s = a :: t ∧ a.isWhitespace = false := by
  unfold pyStrip
  cases hd : s.dropWhile Char.isWhitespace with
  | nil => exact Or.inl rfl
  | cons a t =>
    have ha : a.isWhitespace = false := by
      have h0 := List.head?_dropWhile_not Char.isWhitespace s
      rw [hd] at h0
      simpa using h0
    rcases dropTrailingWS_head a t with h0 | ⟨r, hr⟩
    · exact Or.inl h0
    · exact Or.inr ⟨a, r, hr, ha⟩

theorem pyStrip_idem (s : Str) : pyStrip (pyStrip s) = pyStrip s := by
  have h1 : (pyStrip s).dropWhile Char.isWhitespace = pyStrip s :=
    dropWhile_ws_of_head (by
      rcases pyStrip_head s with h | ⟨a, t, ha, hw⟩
      · exact Or.inl h
      · exact Or.inr ⟨a, t, ha, hw⟩)
  show dropTrailingWS ((pyStrip s).dropWhile Char.isWhitespace) = pyStrip s
  rw [h1]
  exact dropTrailingWS_idem _

/-- The stripped string occurs inside the original string. -/
theorem pyStrip_substrOf (s : Str) : SubstrOf (pyStrip s) s := by
  rcases dropTrailingWS_pre (s.dropWhile Char.isWhitespace) with ⟨b, hb⟩
  refine ⟨s.takeWhile Char.isWhitespace, b, ?_⟩
  show s = s.takeWhile Char.isWhitespace ++
    dropTrailingWS (s.dropWhile Char.isWhitespace) ++ b
  rw [List.append_assoc, ← hb, List.takeWhile_append_dropWhile]

theorem substrOf_nil (h : Str) : SubstrOf [] h := ⟨[], h, rfl⟩

theorem strLt_irrefl (s : Str) : strLt s s = false := by
  induction s with
  | nil => rfl
  | cons a as ih => simp [strLt, ih]

theorem strLt_trans {a b c : Str} (h1 : strLt a b = true) (h2 : strLt b c = true) :
    strLt a c = true := by
  induction a generalizing b c with
  | nil =>
    cases b with
    | nil => simp [strLt] at h1
    | cons y ys =>
      cases c with
      | nil => simp [strLt] at h2
      | cons z zs => simp [strLt]
  | cons x xs ih =>
    cases b with
    | nil => simp [strLt] at h1
    | cons y ys =>
      cases c with
      | nil => simp [strLt] at h2
      | cons z zs =>
        simp only [strLt, Bool.or_eq_true, Bool.and_eq_true, decide_eq_true_eq] at h1 h2 ⊢
        rcases h1 with hxy | ⟨rfl, h1'⟩
        · rcases h2 with hyz | ⟨rfl, h2'⟩
          · exact Or.inl (lt_trans hxy hyz)
          · exact Or.inl hxy
        · rcases h2 with hyz | ⟨rfl, h2'⟩
          · exact Or.inl hyz
          · exact Or.inr ⟨rfl, ih h1' h2'⟩

theorem strLt_trichotomy (a b : Str) :
    strLt a b = true ∨ a = b ∨ strLt b a = true := by
  induction a generalizing b with
  | nil =>
    cases b with
    | nil => exact Or.inr (Or.inl rfl)
    | cons y ys => exact Or.inl (by simp [strLt])
  | cons x xs ih =>
    cases b with
    | nil => exact Or.inr (Or.inr (by simp [strLt]))
    | cons y ys =>
      rcases lt_trichotomy x y with hxy | rfl | hyx
      · exact Or.inl (by simp [strLt, hxy])
      · rcases ih ys with h | rfl | h
        · exact Or.inl (by simp [strLt, h])
        · exact Or.inr (Or.inl rfl)
        · exact Or.inr (Or.inr (by simp [strLt, h]))
      · exact Or.inr (Or.inr (by simp [strLt, hyx]))

theorem strLt_asymm {a b : Str} (h : strLt a b = true) : strLt b a = false := by
  by_contra hc
  have hba : strLt b a = true := by
    cases hx : strLt b a with
    | false => exact absurd hx hc
    | true => rfl
  have := strLt_trans h hba
  rw [strLt_irrefl] at this
  exact Bool.false_ne_true this



theorem notEmpty_iff (l : Str) : (!l.isEmpty) = true ↔ l ≠ [] := by
  cases l <;> simp

theorem isSubstr_nil (h : Str) : isSubstr [] h = true :=
  (isSubstr_iff [] h).mpr (substrOf_nil h)

/-- The per-record characterization of `_name_matches` against the spec's
candidate-based description. -/
theorem name_matches_iff (mk : MK) (query : Str) :
    _name_matches mk query = true ↔ NameMatchSpec mk query := by
  unfold _name_matches NameMatchSpec
  rw [List.any_eq_true]
  constructor
  · rintro ⟨name, hmem, hpred⟩
    simp only [Bool.and_eq_true, Bool.or_eq_true, beq_iff_eq, isSubstr_iff,
      notEmpty_iff] at hpred
    rcases hpred with ⟨hne, hd⟩
    refine ⟨name, hmem, hne, ?_⟩
    rcases hd with (he | h2) | h3
    · exact Or.inr (Or.inl (he ▸ pyStrip_substrOf name).lower)
    · exact Or.inr (Or.inl h2)
    · exact Or.inr (Or.inr h3)
  · rintro ⟨name, hmem, hne, hd⟩
    refine ⟨name, hmem, ?_⟩
    simp only [Bool.and_eq_true, Bool.or_eq_true, beq_iff_eq, isSubstr_iff,
      notEmpty_iff]
    refine ⟨hne, ?_⟩
    rcases hd with rfl | h2 | h3
    · exact Or.inl (Or.inl (pyStrip_idem query))
    · exact Or.inl (Or.inr h2)
    · exact Or.inr h3

/-- C1 (amended): the name matcher returns true iff some non-empty candidate
name (trimmed "first last", trimmed "last first", or an alternate name)
equals the trimmed query exactly, contains the lower-cased trimmed query as a
substring, or is contained in it; for every person whose full name is
**non-empty**, every substring of the full name finds that person via
`get_mk_by_name`; and a query in which a stored non-empty candidate is
contained (a query longer than the stored name) still matches.  Amendment
forced by the counterexample: the substring-inclusion consequence requires
the person's full name to be non-empty. -/
theorem C1_name_matcher_characterization :
    (∀ (mk : MK) (query : Str),
        _name_matches mk query = true ↔ NameMatchSpec mk query) ∧
    (∀ (current former : List MK) (mk : MK) (S : Str) (kn : Int),
        mk ∈ current ++ former → mkFullName mk ≠ [] →
        SubstrOf S (mkFullName mk) →
        mk ∈ get_mk_by_name current former S kn) ∧
    (∀ (mk : MK) (query name : Str),
        name ∈ mkCandidates mk → name ≠ [] →
        SubstrOf (lowerStr name) (lowerStr (pyStrip query)) →
        _name_matches mk query = true) := by
  refine ⟨name_matches_iff, ?_, ?_⟩
  · intro current former mk S kn hmem hfull hS
    rw [get_mk_by_name, List.mem_filter]
    refine ⟨hmem, (name_matches_iff mk S).mpr ?_⟩
    refine ⟨mkFullName mk, List.mem_cons_self _ _, hfull, Or.inr (Or.inl ?_)⟩
    exact ((pyStrip_substrOf S).trans hS).lower
  · intro mk query name hmem hne h3
    exact (name_matches_iff mk query).mpr ⟨name, hmem, hne, Or.inr (Or.inr h3)⟩

/-- Claim C1 as frozen is refuted at a person record with empty first and
last name and no altnames: the empty string is a substring of that person's
(empty) full name, yet `get_mk_by_name` with the empty query does not include
the person (every candidate is empty and is skipped). -/
theorem C1_counterexample :
    SubstrOf [] (mkFullName {}) ∧ ({} : MK) ∉ get_mk_by_name [{}] [] [] 25 :=
  ⟨substrOf_nil _, by decide⟩

/-- Witness for `C1_name_matcher_characterization` at concrete inputs:
the substring "ד כ" of the full name "דוד כהן" finds the member, and the
query "מר אבן" (title + stored altname "אבן") matches by containment of the
stored name in the query. -/
theorem C1_witness :
    ({ mk_individual_first_name := "דוד".data,
       mk_individual_name := "כהן".data } : MK) ∈
      get_mk_by_name
        [{ mk_individual_first_name := "דוד".data,
           mk_individual_name := "כהן".data }] [] ("ד כ".data) 25 ∧
    _name_matches { altnames := ["אבן".data] } ("מר אבן".data) = true := by
  constructor
  · exact C1_name_matcher_characterization.2.1
      [{ mk_individual_first_name := "דוד".data,
         mk_individual_name := "כהן".data }] []
      { mk_individual_first_name := "דוד".data,
        mk_individual_name := "כהן".data }
      ("ד כ".data) 25 (by decide) (by decide)
      ((isSubstr_iff _ _).mp (by decide))
  · exact C1_name_matcher_characterization.2.2
      { altnames := ["אבן".data] } ("מר אבן".data) ("אבן".data)
      (by decide) (by decide) ((isSubstr_iff _ _).mp (by decide))

/-- C10 (amended): with an empty or whitespace-only query the matcher accepts
every record that has at least one non-empty candidate name (the empty
trimmed query is a substring of every candidate), and `get_mk_by_name`
returns the entire current + former list provided every record has such a
candidate.  Amendment forced by the counterexample: a record with no
non-empty candidate is not returned. -/
theorem C10_whitespace_query_matches_all :
    (∀ (mk : MK) (q : Str), pyStrip q = [] →
        (∃ name ∈ mkCandidates mk, name ≠ []) → _name_matches mk q = true) ∧
    (∀ (current former : List MK) (q : Str) (kn : Int), pyStrip q = [] →
        (∀ mk ∈ current ++ former, ∃ name ∈ mkCandidates mk, name ≠ []) →
        get_mk_by_name current former q kn = current ++ former) := by
  have h1 : ∀ (mk : MK) (q : Str), pyStrip q = [] →
      (∃ name ∈ mkCandidates mk, name ≠ []) → _name_matches mk q = true := by
    rintro mk q hq ⟨name, hmem, hne⟩
    refine (name_matches_iff mk q).mpr ⟨name, hmem, hne, Or.inr (Or.inl ?_)⟩
    rw [hq]
    exact substrOf_nil _
  refine ⟨h1, ?_⟩
  intro current former q kn hq hall
  exact List.filter_eq_self.mpr fun mk hmk => h1 mk q hq (hall mk hmk)

/-- Claim C10 as frozen is refuted: with the whitespace-only query `" "`, a
member list holding one record with no name data comes back empty, not as
"every current and former member". -/
theorem C10_counterexample :
    pyStrip " ".data = [] ∧
    get_mk_by_name [({} : MK)] [] (" ".data) 25 = [] := by
  exact ⟨by decide, by decide⟩

/-- Witness for `C10_whitespace_query_matches_all` at concrete inputs. -/
theorem C10_witness :
    _name_matches { altnames := ["א".data] } (" ".data) = true ∧
    get_mk_by_name [({ altnames := ["א".data] } : MK)] [] (" ".data) 25 =
      [{ altnames := ["א".data] }] := by
  constructor
  · exact C10_whitespace_query_matches_all.1 { altnames := ["א".data] }
      (" ".data) (by decide) ⟨"א".data, by decide, by decide⟩
  · exact C10_whitespace_query_matches_all.2 [{ altnames := ["א".data] }] []
      (" ".data) 25 (by decide)
      (by
        intro mk hmk
        simp only [List.append_nil, List.mem_singleton] at hmk
        subst hmk
        exact ⟨"א".data, by decide, by decide⟩)

/-- C2: evaluation of `get_mk_profile` at the three match cardinalities.
Zero matches return `None` and one match returns the record flagged
`multiple_matches = False`, as claimed; but with two matches the code
evaluates `m["full_name"]` on records that (per the module's documented
record shape) carry no `full_name` key, so the call raises `KeyError`
instead of returning the first match with `other_matches` — refuting the
claim's "never raises for multiple matches". -/
theorem C2_get_mk_profile_eval :
    (get_mk_profile_run [] [] ("א".data) 25).1 = Except.ok none ∧
    (get_mk_profile_run
        [({ mk_individual_first_name := "א".data,
            mk_individual_name := "ב".data } : MK)] [] ("א".data) 25).1 =
      Except.ok (some { mk_individual_first_name := "א".data,
                        mk_individual_name := "ב".data,
                        multiple_matches := some false }) ∧
    (get_mk_profile_run
        [({ mk_individual_first_name := "א".data,
            mk_individual_name := "ב".data } : MK),
         ({ mk_individual_first_name := "א".data,
            mk_individual_name := "ג".data } : MK)] [] ("א".data) 25).1 =
      Except.error "KeyError: full_name" := by
  refine ⟨rfl, rfl, rfl⟩

/-- C9: `get_mk_profile` mutates the record held in the member cache — after
a single-match lookup the cached record has gained a
`multiple_matches = False` entry, so the member list is no longer the one
that was fetched. -/
theorem C9_profile_mutates_cache :
    (get_mk_profile_run
        [({ mk_individual_first_name := "א".data,
            mk_individual_name := "ב".data } : MK)] [] ("א".data) 25).2 =
      [{ mk_individual_first_name := "א".data,
         mk_individual_name := "ב".data,
         multiple_matches := some false }] ∧
    (get_mk_profile_run
        [({ mk_individual_first_name := "א".data,
            mk_individual_name := "ב".data } : MK)] [] ("א".data) 25).2 ≠
      [({ mk_individual_first_name := "א".data,
          mk_individual_name := "ב".data } : MK)] := by
  refine ⟨rfl, by decide⟩

/-- C8: `get_all_mks` sorts by the `last_name` key, which the documented
member records do not carry, so the key defaults to `""` for every record
and the "sort" leaves the roster in input order.  Both members below belong
to Knesset 25 and are returned, but the member whose (documented) last name
is "ב" stays before the one whose last name is "א" — the result is not
sorted ascending by last name. -/
theorem C8_roster_not_sorted_eval :
    get_all_mks
        [({ mk_individual_name := "ב".data,
            factions := [some { faction_name := "ע".data,
                                knesset := some 25 }] } : MK)]
        [({ mk_individual_name := "א".data,
            factions := [some { faction_name := "ע".data,
                                knesset := some 25 }] } : MK)]
        (some 25) =
      [{ mk_individual_name := "ב".data,
         factions := [some { faction_name := "ע".data, knesset := some 25 }] },
       { mk_individual_name := "א".data,
         factions := [some { faction_name := "ע".data, knesset := some 25 }] }] ∧
    strLt ("א".data) ("ב".data) = true := by
  refine ⟨by decide, by decide⟩

theorem pyMaxBy_cons_ne_none (key : α → Str) (x : α) (xs : List α) :
    pyMaxBy key (x :: xs) ≠ none := by
  simp only [pyMaxBy]
  cases pyMaxBy key xs with
  | none => simp
  | some m =>
    show ¬ (if strLt (key x) (key m) = true then some m else some x) = none
    split <;> simp

theorem pyMaxBy_eq_none (key : α → Str) (l : List α) :
    pyMaxBy key l = none ↔ l = [] := by
  cases l with
  | nil => simp [pyMaxBy]
  | cons x xs =>
    constructor
    · intro hc
      exact absurd hc (pyMaxBy_cons_ne_none key x xs)
    · intro hc
      simp at hc

/-- Python `max` characterized: the result is an element whose key no other
element strictly exceeds, and every element strictly before it has a strictly
smaller key (it is the first element attaining the maximum). -/
theorem pyMaxBy_spec (key : α → Str) (l : List α) (m : α)
    (h : pyMaxBy key l = some m) :
    (∀ g ∈ l, strLt (key m) (key g) = false) ∧
    ∃ pre post, l = pre ++ m :: post ∧
      ∀ g ∈ pre, strLt (key g) (key m) = true := by
  induction l generalizing m with
  | nil => simp [pyMaxBy] at h
  | cons x xs ih =>
    simp only [pyMaxBy] at h
    cases hx : pyMaxBy key xs with
    | none =>
      rw [hx] at h
      have h2 : some x = some m := h
      injection h2 with h2
      subst h2
      have hxs : xs = [] := (pyMaxBy_eq_none key xs).mp hx
      subst hxs
      exact ⟨by simp [strLt_irrefl], [], [], rfl, by simp⟩
    | some mm =>
      rw [hx] at h
      have h2 : (if strLt (key x) (key mm) = true then some mm else some x) =
          some m := h
      rcases ih mm hx with ⟨hmax, pre, post, hsplit, hpre⟩
      by_cases hlt : strLt (key x) (key mm) = true
      · rw [if_pos hlt] at h2
        injection h2 with h2
        subst h2
        refine ⟨?_, x :: pre, post, by rw [hsplit, List.cons_append], ?_⟩
        · intro g hg
          rcases List.mem_cons.mp hg with rfl | hg'
          · exact strLt_asymm hlt
          · exact hmax g hg'
        · intro g hg
          rcases List.mem_cons.mp hg with rfl | hg'
          · exact hlt
          · exact hpre g hg'
      · rw [if_neg hlt] at h2
        injection h2 with h2
        subst h2
        have hxle : strLt (key x) (key mm) = false := by
          cases hc : strLt (key x) (key mm) with
          | false => rfl
          | true => exact absurd hc hlt
        refine ⟨?_, [], xs, rfl, by simp⟩
        intro g hg
        rcases List.mem_cons.mp hg with rfl | hg'
        · exact strLt_irrefl _
        · cases hc : strLt (key x) (key g) with
          | false => rfl
          | true =>
            rcases strLt_trichotomy (key g) (key mm) with hgm | he | hmg
            · have := strLt_trans hc hgm
              exact absurd this (by rw [hxle]; simp)
            · rw [he] at hc
              exact absurd hc (by rw [hxle]; simp)
            · have := hmax g hg'
              exact absurd hmg (by rw [this]; simp)

theorem mem_relevantFactions (factions : List (Option Faction))
    (kn : Option Int) (f : Faction) :
    f ∈ relevantFactions factions kn ↔ some f ∈ factions ∧ f.knesset = kn := by
  unfold relevantFactions
  rw [List.mem_filterMap]
  constructor
  · rintro ⟨of, hof, hf⟩
    cases of with
    | none => simp at hf
    | some g =>
      have hf2 : (if (g.knesset == kn) = true then some g else none) =
          some f := hf
      by_cases hk : (g.knesset == kn) = true
      · rw [if_pos hk] at hf2
        injection hf2 with hf2
        subst hf2
        exact ⟨hof, by simpa using hk⟩
      · rw [if_neg hk] at hf2
        exact absurd hf2 (by simp)
  · rintro ⟨hmem, hk⟩
    exact ⟨some f, hmem, by simp [hk]⟩

/-- C6: the faction resolver returns `none` iff no (non-null) membership's
term equals the target; otherwise it returns a membership of the target term
whose start-date key (missing/empty date ↦ `""`) no qualifying membership
strictly exceeds, and it is precisely the *first* qualifying membership
attaining that maximum (so for identical start dates the earliest in input
order is chosen — deterministic for a given input ordering); and the empty
start-date key is minimal for the comparison. -/
theorem C6_most_recent_faction_selection :
    (∀ (factions : List (Option Faction)) (kn : Option Int),
        _most_recent_faction factions kn = none ↔
          ∀ f : Faction, some f ∈ factions → f.knesset ≠ kn) ∧
    (∀ (factions : List (Option Faction)) (kn : Option Int) (f : Faction),
        _most_recent_faction factions kn = some f →
          (some f ∈ factions ∧ f.knesset = kn) ∧
          (∀ g : Faction, some g ∈ factions → g.knesset = kn →
            strLt (startKey f) (startKey g) = false) ∧
          ∃ pre post, relevantFactions factions kn = pre ++ f :: post ∧
            ∀ g ∈ pre, strLt (startKey g) (startKey f) = true) ∧
    (∀ s : Str, strLt s [] = false) := by
  refine ⟨?_, ?_, ?_⟩
  · intro factions kn
    rw [_most_recent_faction, pyMaxBy_eq_none, List.eq_nil_iff_forall_not_mem]
    constructor
    · intro h f hmem hk
      exact h f ((mem_relevantFactions factions kn f).mpr ⟨hmem, hk⟩)
    · intro h f hf
      rcases (mem_relevantFactions factions kn f).mp hf with ⟨hmem, hk⟩
      exact h f hmem hk
  · intro factions kn f h
    rw [_most_recent_faction] at h
    rcases pyMaxBy_spec startKey _ f h with ⟨hmax, pre, post, hsplit, hpre⟩
    have hfmem : f ∈ relevantFactions factions kn := by
      rw [hsplit]
      exact List.mem_append.mpr (Or.inr (List.mem_cons_self _ _))
    refine ⟨(mem_relevantFactions factions kn f).mp hfmem, ?_,
      pre, post, hsplit, hpre⟩
    intro g hmem hk
    exact hmax g ((mem_relevantFactions factions kn g).mpr ⟨hmem, hk⟩)
  · intro s
    cases s <;> rfl

/-- Witness for `C6_most_recent_faction_selection` at a concrete tie: two
memberships of term 25 with identical start dates — the first one in input
order is selected. -/
theorem C6_witness :
    _most_recent_faction
        [some { faction_name := "א".data, start_date := some "2024-01-01".data,
                knesset := some 25 },
         none,
         some { faction_name := "ב".data, start_date := some "2024-01-01".data,
                knesset := some 25 }] (some 25) =
      some { faction_name := "א".data, start_date := some "2024-01-01".data,
             knesset := some 25 } ∧
    ((some { faction_name := "א".data, start_date := some "2024-01-01".data,
             knesset := some 25 } ∈
        [some { faction_name := "א".data, start_date := some "2024-01-01".data,
                knesset := some 25 },
         none,
         some ({ faction_name := "ב".data, start_date := some "2024-01-01".data,
                 knesset := some 25 } : Faction)] ∧
      ({ faction_name := "א".data, start_date := some "2024-01-01".data,
         knesset := some 25 } : Faction).knesset = some 25) ∧
     (∀ g : Faction,
        some g ∈
          [some { faction_name := "א".data, start_date := some "2024-01-01".data,
                  knesset := some 25 },
           none,
           some ({ faction_name := "ב".data, start_date := some "2024-01-01".data,
                   knesset := some 25 } : Faction)] →
        g.knesset = some 25 →
        strLt (startKey { faction_name := "א".data,
                          start_date := some "2024-01-01".data,
                          knesset := some 25 }) (startKey g) = false) ∧
     ∃ pre post,
        relevantFactions
            [some { faction_name := "א".data, start_date := some "2024-01-01".data,
                    knesset := some 25 },
             none,
             some { faction_name := "ב".data, start_date := some "2024-01-01".data,
                    knesset := some 25 }] (some 25) =
          pre ++ { faction_name := "א".data, start_date := some "2024-01-01".data,
                   knesset := some 25 } :: post ∧
        ∀ g ∈ pre,
          strLt (startKey g)
            (startKey { faction_name := "א".data,
                        start_date := some "2024-01-01".data,
                        knesset := some 25 }) = true) :=
  ⟨by decide, C6_most_recent_faction_selection.2.1 _ (some 25) _ (by decide)⟩

theorem insertS_perm (le : α → α → Bool) (x : α) (l : List α) :
    (insertS le x l).Perm (x :: l) := by
  induction l with
  | nil => exact List.Perm.refl _
  | cons y ys ih =>
    simp only [insertS]
    split
    · exact (ih.cons y).trans (List.Perm.swap x y ys)
    · exact List.Perm.refl _

theorem foldl_insertS_perm (le : α → α → Bool) (l acc : List α) :
    (l.foldl (fun acc x => insertS le x acc) acc).Perm (acc ++ l) := by
  induction l generalizing acc with
  | nil => simp
  | cons x xs ih =>
    simp only [List.foldl_cons]
    refine (ih (insertS le x acc)).trans ?_
    refine (List.Perm.append_right xs (insertS_perm le x acc)).trans ?_
    exact List.perm_middle.symm

theorem sortS_perm (le : α → α → Bool) (l : List α) : (sortS le l).Perm l := by
  simpa using foldl_insertS_perm le l []

theorem insertS_pairwise (le : α → α → Bool)
    (htot : ∀ a b, le a b = true ∨ le b a = true)
    (htrans : ∀ a b c, le a b = true → le b c = true → le a c = true)
    (x : α) (l : List α) (hl : l.Pairwise fun a b => le a b = true) :
    (insertS le x l).Pairwise fun a b => le a b = true := by
  induction l with
  | nil => simp [insertS]
  | cons y ys ih =>
    rcases List.pairwise_cons.mp hl with ⟨hy, hys⟩
    simp only [insertS]
    split
    · rename_i hle
      refine List.pairwise_cons.mpr ⟨?_, ih hys⟩
      intro b hb
      rcases List.mem_cons.mp ((insertS_perm le x ys).mem_iff.mp hb) with rfl | hbys
      · exact hle
      · exact hy b hbys
    · rename_i hle
      have hxy : le x y = true := by
        rcases htot x y with h | h
        · exact h
        · exact absurd h hle
      refine List.pairwise_cons.mpr ⟨?_, hl⟩
      intro b hb
      rcases List.mem_cons.mp hb with rfl | hbys
      · exact hxy
      · exact htrans x y b hxy (hy b hbys)

theorem sortS_pairwise (le : α → α → Bool)
    (htot : ∀ a b, le a b = true ∨ le b a = true)
    (htrans : ∀ a b c, le a b = true → le b c = true → le a c = true)
    (l : List α) :
    (sortS le l).Pairwise fun a b => le a b = true := by
  suffices h : ∀ acc : List α, acc.Pairwise (fun a b => le a b = true) →
      (l.foldl (fun acc x => insertS le x acc) acc).Pairwise
        fun a b => le a b = true by
    exact h [] (by simp)
  induction l with
  | nil => intro acc hacc; simpa using hacc
  | cons x xs ih =>
    intro acc hacc
    exact ih (insertS le x acc) (insertS_pairwise le htot htrans x acc hacc)

theorem insertS_filter_pos (le : α → α → Bool)
    (htrans : ∀ a b c, le a b = true → le b c = true → le a c = true)
    (p : α → Bool) (hp : ∀ a b, p a = true → p b = true → le a b = true)
    (x : α) (hx : p x = true) (l : List α)
    (hl : l.Pairwise fun a b => le a b = true) :
    (insertS le x l).filter p = l.filter p ++ [x] := by
  induction l with
  | nil => simp [insertS, hx]
  | cons y ys ih =>
    rcases List.pairwise_cons.mp hl with ⟨hy, hys⟩
    simp only [insertS]
    split
    · rename_i hle
      by_cases hpy : p y = true
      · rw [List.filter_cons_of_pos hpy, List.filter_cons_of_pos hpy, ih hys,
          List.cons_append]
      · rw [List.filter_cons_of_neg (by simp [hpy]),
          List.filter_cons_of_neg (by simp [hpy]), ih hys]
    · rename_i hle
      have hfe : (y :: ys).filter p = [] := by
        rw [List.filter_eq_nil_iff]
        intro b hb hpb
        have hbx : le b x = true := hp b x hpb hx
        rcases List.mem_cons.mp hb with rfl | hbys
        · exact hle hbx
        · exact hle (htrans y b x (hy b hbys) hbx)
      rw [List.filter_cons_of_pos hx, hfe]
      rfl

theorem insertS_filter_neg (le : α → α → Bool) (p : α → Bool)
    (x : α) (hx : p x = false) (l : List α) :
    (insertS le x l).filter p = l.filter p := by
  induction l with
  | nil => simp [insertS, hx]
  | cons y ys ih =>
    simp only [insertS]
    split
    · by_cases hpy : p y = true
      · rw [List.filter_cons_of_pos hpy, List.filter_cons_of_pos hpy, ih]
      · rw [List.filter_cons_of_neg (by simp [hpy]),
          List.filter_cons_of_neg (by simp [hpy]), ih]
    · rw [List.filter_cons_of_neg (by simp [hx])]

/-- Stability of the sort on an equivalence class of the key: if all
`p`-elements compare `le` in both directions, the `p`-elements of the sorted
list are exactly those of the input, in the same order. -/
theorem sortS_filter (le : α → α → Bool)
    (htot : ∀ a b, le a b = true ∨ le b a = true)
    (htrans : ∀ a b c, le a b = true → le b c = true → le a c = true)
    (p : α → Bool) (hp : ∀ a b, p a = true → p b = true → le a b = true)
    (l : List α) :
    (sortS le l).filter p = l.filter p := by
  suffices h : ∀ acc : List α, acc.Pairwise (fun a b => le a b = true) →
      (l.foldl (fun acc x => insertS le x acc) acc).filter p =
        acc.filter p ++ l.filter p by
    simpa using h [] (by simp)
  induction l with
  | nil => intro acc hacc; simp
  | cons x xs ih =>
    intro acc hacc
    simp only [List.foldl_cons]
    rw [ih (insertS le x acc) (insertS_pairwise le htot htrans x acc hacc)]
    by_cases hpx : p x = true
    · rw [insertS_filter_pos le htrans p hp x hpx acc hacc,
        List.filter_cons_of_pos hpx, List.append_assoc, List.singleton_append]
    · rw [insertS_filter_neg le p x (by simp [hpx]) acc,
        List.filter_cons_of_neg (by simp [hpx])]

theorem bump_sum (c : List (Str × Nat)) (n : Str) :
    ((bump c n).map Prod.snd).sum = (c.map Prod.snd).sum + 1 := by
  induction c with
  | nil => simp [bump]
  | cons p rest ih =>
    rcases p with ⟨m, k⟩
    simp only [bump]
    split
    · simp only [List.map_cons, List.sum_cons]
      omega
    · simp only [List.map_cons, List.sum_cons, ih]
      omega

theorem foldl_countStep_sum (kn : Option Int) (members : List MK)
    (acc : List (Str × Nat)) :
    ((members.foldl (countStep kn) acc).map Prod.snd).sum =
      (acc.map Prod.snd).sum +
        members.countP (fun mk => (resolvedPartyName kn mk).isSome) := by
  induction members generalizing acc with
  | nil => simp
  | cons mk ms ih =>
    simp only [List.foldl_cons, List.countP_cons]
    rw [ih (countStep kn acc mk)]
    unfold countStep
    cases h : resolvedPartyName kn mk with
    | none => simp [h]
    | some name =>
      simp only [h, Option.isSome_some, if_pos, bump_sum, cond_true]
      omega

theorem bump_map_fst (c : List (Str × Nat)) (n : Str) :
    (bump c n).map Prod.fst = occStep (c.map Prod.fst) n := by
  induction c with
  | nil => simp [bump, occStep]
  | cons p rest ih =>
    rcases p with ⟨m, k⟩
    by_cases hmn : m = n
    · subst hmn
      simp [bump, occStep]
    · simp only [bump, if_neg hmn, List.map_cons]
      rw [ih]
      simp only [occStep, List.mem_cons]
      by_cases hmem : n ∈ rest.map Prod.fst
      · rw [if_pos hmem, if_pos (Or.inr hmem)]
      · rw [if_neg hmem,
          if_neg (by rintro (h | h); exact hmn h.symm; exact hmem h)]
        simp

theorem foldl_countStep_keys (kn : Option Int) (members : List MK) :
    ∀ acc : List (Str × Nat),
      (members.foldl (countStep kn) acc).map Prod.fst =
        (members.filterMap (resolvedPartyName kn)).foldl occStep
          (acc.map Prod.fst) := by
  induction members with
  | nil => intro acc; simp
  | cons mk ms ih =>
    intro acc
    simp only [List.foldl_cons, List.filterMap_cons]
    cases h : resolvedPartyName kn mk with
    | none =>
      have hstep : countStep kn acc mk = acc := by
        unfold countStep
        rw [h]
      rw [hstep]
      exact ih acc
    | some name =>
      have hstep : countStep kn acc mk = bump acc name := by
        unfold countStep
        rw [h]
      rw [hstep, ih (bump acc name), bump_map_fst]
      simp

/-- The keys of the counts dict are the distinct resolved party names in
first-encounter order. -/
theorem partyCounts_keys (members : List MK) (kn : Option Int) :
    (partyCounts members kn).map Prod.fst =
      firstOccurrences (members.filterMap (resolvedPartyName kn)) := by
  simpa using foldl_countStep_keys kn members []

/-- C7: the party tally sums to the number of raw roster members with a
resolved faction for the term; it is ordered non-increasing by count; parties
of any fixed count appear exactly in the order of the underlying counts dict
(stable sort); and the counts dict's keys are the distinct resolved party
names in order of first encounter in the member list. -/
theorem C7_party_tally :
    ∀ (current former : List MK) (kn : Option Int),
      (((get_all_parties current former kn).map Party.mk_count).sum =
        (_get_all_members_raw current former kn).countP
          fun mk => (resolvedPartyName kn mk).isSome) ∧
      (get_all_parties current former kn).Pairwise
        (fun a b => b.mk_count ≤ a.mk_count) ∧
      (∀ cnt : Nat,
        (get_all_parties current former kn).filter
            (fun pr => pr.mk_count == cnt) =
          ((partyCounts (_get_all_members_raw current former kn) kn).map
              (fun p => { party := p.1, mk_count := p.2 : Party })).filter
            (fun pr => pr.mk_count == cnt)) ∧
      (partyCounts (_get_all_members_raw current former kn) kn).map Prod.fst =
        firstOccurrences
          ((_get_all_members_raw current former kn).filterMap
            (resolvedPartyName kn)) := by
  intro current former kn
  have htot : ∀ a b : Party,
      (decide (b.mk_count ≤ a.mk_count)) = true ∨
      (decide (a.mk_count ≤ b.mk_count)) = true := by
    intro a b
    rcases Nat.le_total b.mk_count a.mk_count with h | h
    · exact Or.inl (by simpa using h)
    · exact Or.inr (by simpa using h)
  have htrans : ∀ a b c : Party,
      (decide (b.mk_count ≤ a.mk_count)) = true →
      (decide (c.mk_count ≤ b.mk_count)) = true →
      (decide (c.mk_count ≤ a.mk_count)) = true := by
    intro a b c h1 h2
    simp only [decide_eq_true_eq] at h1 h2 ⊢
    omega
  refine ⟨?_, ?_, ?_, partyCounts_keys _ kn⟩
  · have hperm : (get_all_parties current former kn).Perm
        ((partyCounts (_get_all_members_raw current former kn) kn).map
          fun p => { party := p.1, mk_count := p.2 : Party }) :=
      sortS_perm _ _
    rw [(hperm.map Party.mk_count).sum_eq]
    rw [List.map_map]
    have hcomp :
        (Party.mk_count ∘ fun p : Str × Nat => { party := p.1, mk_count := p.2 : Party }) =
          Prod.snd := rfl
    rw [hcomp]
    unfold partyCounts
    rw [foldl_countStep_sum]
    simp
  · have hp := sortS_pairwise (fun a b : Party => decide (b.mk_count ≤ a.mk_count))
      (fun a b => htot a b) (fun a b c => htrans a b c)
      ((partyCounts (_get_all_members_raw current former kn) kn).map
        fun p => { party := p.1, mk_count := p.2 : Party })
    exact hp.imp fun h => by simpa using h
  · intro cnt
    exact sortS_filter (fun a b : Party => decide (b.mk_count ≤ a.mk_count))
      (fun a b => htot a b) (fun a b c => htrans a b c)
      (fun pr => pr.mk_count == cnt)
      (by
        intro a b ha hb
        simp only [beq_iff_eq] at ha hb
        simp [ha, hb])
      ((partyCounts (_get_all_members_raw current former kn) kn).map
        fun p => { party := p.1, mk_count := p.2 : Party })

theorem stepRow_keys_nodup (seen : List CMember) (row : PTPRow)
    (h : (seen.map CMember.mk_id).Nodup) :
    ((stepRow seen row).map CMember.mk_id).Nodup := by
  unfold stepRow
  by_cases hact : isSubstr actingMark (rowDuty row) = true
  · rw [if_pos hact]
    exact h
  · rw [if_neg hact]
    by_cases hany : seen.any (fun e => e.mk_id == row.PersonID) = true
    · rw [if_pos hany, List.map_map]
      have hcomp : (CMember.mk_id ∘ fun e : CMember =>
          if e.mk_id == row.PersonID &&
              (isSubstr chairMark (rowDuty row) &&
                !isSubstr chairMark e.duty_desc) then
            { e with duty_desc := rowDuty row }
          else e) = CMember.mk_id := by
        funext e
        show CMember.mk_id (if _ then _ else _) = _
        split <;> rfl
      rw [hcomp]
      exact h
    · rw [if_neg hany, List.map_append]
      have hnotin : row.PersonID ∉ seen.map CMember.mk_id := by
        intro hc
        rcases List.mem_map.mp hc with ⟨e, he, hid⟩
        have : seen.any (fun e => e.mk_id == row.PersonID) = true :=
          List.any_eq_true.mpr ⟨e, he, by simp [hid]⟩
        exact hany this
      refine List.Nodup.append h (by simp) ?_
      intro a ha
      simp only [List.map_cons, List.map_nil, List.mem_singleton]
      intro hc
      subst hc
      exact hnotin ha

theorem foldl_stepRow_keys_nodup (rows : List PTPRow) :
    ∀ seen : List CMember, (seen.map CMember.mk_id).Nodup →
      ((rows.foldl stepRow seen).map CMember.mk_id).Nodup := by
  induction rows with
  | nil => intro seen h; exact h
  | cons row rs ih =>
    intro seen h
    exact ih (stepRow seen row) (stepRow_keys_nodup seen row h)

theorem bool_eq_false {b : Bool} (h : ¬ b = true) : b = false := by
  cases b
  · rfl
  · exact absurd rfl h

/-- Membership after one step: an entry was already there, or the step's row
is retained (non-acting) and carries the entry's person id. -/
theorem mem_stepRow (seen : List CMember) (row : PTPRow) (e : CMember)
    (he : e ∈ stepRow seen row) :
    e ∈ seen ∨
      (isSubstr actingMark (rowDuty row) = false ∧ row.PersonID = e.mk_id) := by
  unfold stepRow at he
  by_cases hact : isSubstr actingMark (rowDuty row) = true
  · rw [if_pos hact] at he
    exact Or.inl he
  · have hactf : isSubstr actingMark (rowDuty row) = false := bool_eq_false hact
    rw [if_neg hact] at he
    by_cases hany : seen.any (fun e => e.mk_id == row.PersonID) = true
    · rw [if_pos hany] at he
      rcases List.mem_map.mp he with ⟨e1, he1, hfe⟩
      by_cases hcond : (e1.mk_id == row.PersonID &&
          (isSubstr chairMark (rowDuty row) &&
            !isSubstr chairMark e1.duty_desc)) = true
      · rw [if_pos hcond] at hfe
        refine Or.inr ⟨hactf, ?_⟩
        have hid1 : e1.mk_id = row.PersonID := by
          simpa using ((Bool.and_eq_true _ _).mp hcond).1
        rw [← hfe]
        exact hid1.symm
      · rw [if_neg hcond] at hfe
        exact Or.inl (hfe ▸ he1)
    · rw [if_neg hany] at he
      rcases List.mem_append.mp he with h1 | h1
      · exact Or.inl h1
      · refine Or.inr ⟨hactf, ?_⟩
        have h2 := List.mem_singleton.mp h1
        rw [h2]

/-- Every entry of the fold is an initial entry or stems from a retained
(non-acting) row with its person id. -/
theorem foldl_stepRow_entry_source (rows : List PTPRow) :
    ∀ seen : List CMember, ∀ e ∈ rows.foldl stepRow seen,
      e ∈ seen ∨ ∃ row ∈ rows, row.PersonID = e.mk_id ∧
        isSubstr actingMark (rowDuty row) = false := by
  induction rows with
  | nil => intro seen e he; exact Or.inl he
  | cons row rs ih =>
    intro seen e he
    rcases ih (stepRow seen row) e he with h0 | ⟨r, hr, hid, hact⟩
    · rcases mem_stepRow seen row e h0 with h1 | ⟨hactf, hid⟩
      · exact Or.inl h1
      · exact Or.inr ⟨row, List.mem_cons_self _ _, hid, hactf⟩
    · exact Or.inr ⟨r, List.mem_cons_of_mem row hr, hid, hact⟩

/-- A retained chair row guarantees a chair-marked entry for its person id. -/
theorem foldl_stepRow_chair (rows : List PTPRow) :
    ∀ (seen : List CMember) (pid : Option Int),
      ((∃ e ∈ seen, e.mk_id = pid ∧
          isSubstr chairMark e.duty_desc = true) ∨
        ∃ row ∈ rows, row.PersonID = pid ∧
          isSubstr actingMark (rowDuty row) = false ∧
          isSubstr chairMark (rowDuty row) = true) →
      ∃ e ∈ rows.foldl stepRow seen, e.mk_id = pid ∧
        isSubstr chairMark e.duty_desc = true := by
  induction rows with
  | nil =>
    intro seen pid h
    rcases h with h | ⟨row, hrow, _⟩
    · exact h
    · exact absurd hrow (List.not_mem_nil row)
  | cons row rs ih =>
    intro seen pid h
    simp only [List.foldl_cons]
    apply ih (stepRow seen row) pid
    rcases h with ⟨e, he, hid, hchair⟩ | ⟨r, hr, hid, hact, hchair⟩
    · left
      unfold stepRow
      by_cases hact : isSubstr actingMark (rowDuty row) = true
      · rw [if_pos hact]
        exact ⟨e, he, hid, hchair⟩
      · rw [if_neg hact]
        by_cases hany : seen.any (fun e => e.mk_id == row.PersonID) = true
        · rw [if_pos hany]
          refine ⟨e, List.mem_map.mpr ⟨e, he, ?_⟩, hid, hchair⟩
          rw [if_neg]
          simp [hchair]
        · rw [if_neg hany]
          exact ⟨e, List.mem_append.mpr (Or.inl he), hid, hchair⟩
    · rcases List.mem_cons.mp hr with rfl | hrs
      · left
        unfold stepRow
        rw [if_neg (by rw [hact]; simp)]
        by_cases hany : seen.any (fun e => e.mk_id == r.PersonID) = true
        · rw [if_pos hany]
          rcases List.any_eq_true.mp hany with ⟨e0, he0, hbeq⟩
          have hid0 : e0.mk_id = r.PersonID := by simpa using hbeq
          by_cases hch0 : isSubstr chairMark e0.duty_desc = true
          · refine ⟨e0, List.mem_map.mpr ⟨e0, he0, ?_⟩, hid0.trans hid, hch0⟩
            rw [if_neg]
            simp [hch0]
          · refine ⟨{ e0 with duty_desc := rowDuty r },
              List.mem_map.mpr ⟨e0, he0, ?_⟩, hid0.trans hid, hchair⟩
            rw [if_pos]
            simp only [Bool.and_eq_true]
            exact ⟨by simp [hid0], hchair, by simp [hch0]⟩
        · rw [if_neg hany]
          refine ⟨{ mk_id := r.PersonID, full_name := rowFullName r, duty_desc := rowDuty r }, List.mem_append.mpr (Or.inr (List.mem_singleton.mpr rfl)), hid, hchair⟩
      · right
        exact ⟨r, hrs, hid, hact, hchair⟩

/-- C3 (amended): `get_active_committee_members` never returns two entries
with the same person id; a person all of whose rows carry the acting marker
does not appear at all; and if a person has at least one **retained** row
(duty label free of the acting marker) that carries the chair marker, the
merged entry's duty label carries the chair marker even when other rows are
plain-member labels.  Amendment forced by the counterexample: a chair-marked
row that also carries the acting marker is excluded before the merge and
cannot contribute its chair designation. -/
theorem C3_committee_roster_merge :
    ∀ rows : List PTPRow,
      ((get_active_committee_members rows).map CMember.mk_id).Nodup ∧
      (∀ pid : Option Int,
        (∀ row ∈ rows, row.PersonID = pid →
          isSubstr actingMark (rowDuty row) = true) →
        ∀ e ∈ get_active_committee_members rows, e.mk_id ≠ pid) ∧
      (∀ pid : Option Int,
        (∃ row ∈ rows, row.PersonID = pid ∧
          isSubstr actingMark (rowDuty row) = false ∧
          isSubstr chairMark (rowDuty row) = true) →
        ∃ e ∈ get_active_committee_members rows,
          e.mk_id = pid ∧ isSubstr chairMark e.duty_desc = true) := by
  intro rows
  have hperm : (get_active_committee_members rows).Perm
      (rows.foldl stepRow []) := sortS_perm _ _
  refine ⟨?_, ?_, ?_⟩
  · exact ((hperm.map CMember.mk_id).nodup_iff).mpr
      (foldl_stepRow_keys_nodup rows [] (by simp))
  · intro pid hall e he hc
    have he' : e ∈ rows.foldl stepRow [] := hperm.mem_iff.mp he
    rcases foldl_stepRow_entry_source rows [] e he' with h0 | ⟨row, hrow, hid, hact⟩
    · exact absurd h0 (List.not_mem_nil e)
    · have : isSubstr actingMark (rowDuty row) = true :=
        hall row hrow (hid.trans hc)
      rw [hact] at this
      exact Bool.false_ne_true this
  · intro pid hex
    rcases foldl_stepRow_chair rows [] pid (Or.inr hex) with ⟨e, he, hid, hch⟩
    exact ⟨e, hperm.mem_iff.mpr he, hid, hch⟩

/-- Claim C3 as frozen is refuted: person 7 has a plain-member row and an
acting-chair row ('מ"מ יו"ר ...', which carries the chair marker); the
acting row is excluded before merging, so the merged entry's duty label does
not carry the chair designation although a source row for the person does. -/
theorem C3_counterexample :
    (∃ row ∈
        [({ PersonID := some 7, DutyDesc := some "חבר הוועדה".data } : PTPRow),
         ({ PersonID := some 7,
            DutyDesc := some "מ\"מ יו\"ר הוועדה".data } : PTPRow)],
      row.PersonID = some 7 ∧ isSubstr chairMark (rowDuty row) = true) ∧
    ∀ e ∈ get_active_committee_members
        [({ PersonID := some 7, DutyDesc := some "חבר הוועדה".data } : PTPRow),
         ({ PersonID := some 7,
            DutyDesc := some "מ\"מ יו\"ר הוועדה".data } : PTPRow)],
      e.mk_id = some 7 → isSubstr chairMark e.duty_desc = false := by
  constructor
  · exact ⟨{ PersonID := some 7, DutyDesc := some "מ\"מ יו\"ר הוועדה".data }, by decide, by decide, by decide⟩
  · decide

/-- Witness for `C3_committee_roster_merge` at concrete inputs: a retained
chair row yields a chair-marked merged entry even with a plain row present,
and a person with only an acting row does not appear. -/
theorem C3_witness :
    (∃ e ∈ get_active_committee_members
        [({ PersonID := some 8, DutyDesc := some "חבר הוועדה".data } : PTPRow),
         ({ PersonID := some 8, DutyDesc := some "יו\"ר הוועדה".data } : PTPRow)],
      e.mk_id = some 8 ∧ isSubstr chairMark e.duty_desc = true) ∧
    (∀ e ∈ get_active_committee_members
        [({ PersonID := some 9, DutyDesc := some "מ\"מ יו\"ר".data } : PTPRow)],
      e.mk_id ≠ some 9) := by
  constructor
  · exact (C3_committee_roster_merge _).2.2 (some 8)
      ⟨{ PersonID := some 8, DutyDesc := some "יו\"ר הוועדה".data },
        by decide, by decide, by decide, by decide⟩
  · exact (C3_committee_roster_merge _).2.1 (some 9) (by decide)

theorem prioIndex_eq_length (l : List Str) (d : Str) (h : ∀ g ∈ l, d ≠ g) :
    prioIndex l d = l.length := by
  induction l with
  | nil => rfl
  | cons p ps ih =>
    simp only [prioIndex, List.length_cons]
    rw [if_neg fun hc => h p (List.mem_cons_self _ _) hc.symm,
      ih fun g hg => h g (List.mem_cons_of_mem p hg)]

/-- C4: `get_bill_documents` returns the path-bearing rows (normalized)
ordered non-decreasing in the fixed four-label priority; the result is a
permutation of exactly the normalized path-bearing input rows; rows with an
unknown group label (priority 4 = list length) keep their relative input
order; and the fixed ranks hold — first-reading text has rank 1, gazette
publication rank 3, any label outside the fixed list rank 4. -/
theorem C4_document_ranking :
    ∀ (bill_id : Int) (docs : List DocRow),
      (get_bill_documents bill_id docs).Pairwise
        (fun a b => outPriority a ≤ outPriority b) ∧
      (get_bill_documents bill_id docs).Perm
        ((docs.filter pathTruthy).map (toDocOut bill_id)) ∧
      ((get_bill_documents bill_id docs).filter
          (fun d => outPriority d == _DOC_GROUP_PRIORITY.length) =
        (docs.filter (fun r => (_priority r == _DOC_GROUP_PRIORITY.length) &&
            pathTruthy r)).map (toDocOut bill_id)) ∧
      (∀ r : DocRow,
        r.GroupTypeDesc = some ("הצעת חוק לקריאה הראשונה".data) →
        _priority r = 1) ∧
      (∀ r : DocRow,
        r.GroupTypeDesc = some ("חוק - פרסום ברשומות".data) →
        _priority r = 3) ∧
      (∀ r : DocRow,
        (∀ g ∈ _DOC_GROUP_PRIORITY, r.GroupTypeDesc.getD [] ≠ g) →
        _priority r = _DOC_GROUP_PRIORITY.length) := by
  intro bill_id docs
  have htot : ∀ a b : DocRow,
      (decide (_priority a ≤ _priority b)) = true ∨
      (decide (_priority b ≤ _priority a)) = true := by
    intro a b
    rcases Nat.le_total (_priority a) (_priority b) with h | h
    · exact Or.inl (by simpa using h)
    · exact Or.inr (by simpa using h)
  have htrans : ∀ a b c : DocRow,
      (decide (_priority a ≤ _priority b)) = true →
      (decide (_priority b ≤ _priority c)) = true →
      (decide (_priority a ≤ _priority c)) = true := by
    intro a b c h1 h2
    simp only [decide_eq_true_eq] at h1 h2 ⊢
    omega
  refine ⟨?_, ?_, ?_, ?_, ?_, ?_⟩
  · have hsp := sortS_pairwise
      (fun a b : DocRow => decide (_priority a ≤ _priority b))
      htot htrans docs
    have h1 : ((sortS (fun a b : DocRow =>
        decide (_priority a ≤ _priority b)) docs).filter pathTruthy).Pairwise
        (fun a b => _priority a ≤ _priority b) :=
      (hsp.imp fun h => by simpa using h).filter pathTruthy
    exact List.pairwise_map.mpr h1
  · exact ((sortS_perm _ docs).filter pathTruthy).map (toDocOut bill_id)
  · unfold get_bill_documents
    rw [List.filter_map]
    have hcomp : ((fun d : DocOut =>
        outPriority d == _DOC_GROUP_PRIORITY.length) ∘ toDocOut bill_id) =
        fun r : DocRow => _priority r == _DOC_GROUP_PRIORITY.length := rfl
    rw [hcomp, List.filter_filter]
    rw [sortS_filter (fun a b : DocRow => decide (_priority a ≤ _priority b))
      htot htrans
      (fun a => (_priority a == _DOC_GROUP_PRIORITY.length) && pathTruthy a)
      (by
        intro a b ha hb
        have ha' : _priority a = _DOC_GROUP_PRIORITY.length := by
          have := ((Bool.and_eq_true _ _).mp ha).1
          simpa using this
        have hb' : _priority b = _DOC_GROUP_PRIORITY.length := by
          have := ((Bool.and_eq_true _ _).mp hb).1
          simpa using this
        simp [ha', hb'])
      docs]
  · intro r h
    unfold _priority
    rw [h]
    decide
  · intro r h
    unfold _priority
    rw [h]
    decide
  · intro r h
    exact prioIndex_eq_length _ _ h

/-- Witness for `C4_document_ranking` at concrete inputs, including the
claim's example: a first-reading row ranks before a gazette row, which ranks
before an unknown-labelled row. -/
theorem C4_witness :
    _priority { Id := 1, GroupTypeDesc := some ("הצעת חוק לקריאה הראשונה".data) } = 1 ∧
    _priority { Id := 2, GroupTypeDesc := some ("חוק - פרסום ברשומות".data) } = 3 ∧
    _priority { Id := 3, GroupTypeDesc := some ("unknown-label".data) } =
      _DOC_GROUP_PRIORITY.length ∧
    (get_bill_documents 5
        [{ Id := 2, GroupTypeDesc := some ("חוק - פרסום ברשומות".data),
           FilePath := some "a".data },
         { Id := 1, GroupTypeDesc := some ("הצעת חוק לקריאה הראשונה".data),
           FilePath := some "b".data },
         { Id := 3, GroupTypeDesc := some ("unknown-label".data),
           FilePath := some "c".data }]).map DocOut.doc_id = [1, 2, 3] := by
  refine ⟨(C4_document_ranking 0 []).2.2.2.1 _ rfl,
    (C4_document_ranking 0 []).2.2.2.2.1 _ rfl,
    (C4_document_ranking 0 []).2.2.2.2.2 _ (by decide), by decide⟩

theorem billTextLoop_spec (bill_id : Int)
    (fetch : DocOut → Option (List (Option Str))) (max_chars : Nat)
    (docs : List DocOut) :
    (∀ r : BillText, billTextLoop bill_id fetch max_chars docs = some r →
      r.text.length ≤ max_chars ∧
      ∃ doc ∈ docs, ∃ full : Str, fmtOk doc = true ∧
        docExtract fetch doc = some full ∧ r.text = full.take max_chars ∧
        (r.truncated = true ↔ max_chars < full.length)) ∧
    ((∀ doc ∈ docs, fmtOk doc = true → docExtract fetch doc = none) →
      billTextLoop bill_id fetch max_chars docs = none) := by
  induction docs with
  | nil =>
    constructor
    · intro r h
      exact absurd h (by simp [billTextLoop])
    · intro h
      rfl
  | cons doc rest ih =>
    constructor
    · intro r h
      by_cases hfmt : fmtOk doc = true
      · rw [billTextLoop, if_neg (by simp [hfmt])] at h
        cases hext : docExtract fetch doc with
        | none =>
          rw [hext] at h
          rcases ih.1 r h with ⟨hlen, d, hd, full, hrest⟩
          exact ⟨hlen, d, List.mem_cons_of_mem doc hd, full, hrest⟩
        | some full =>
          rw [hext] at h
          injection h with h
          subst h
          refine ⟨?_, doc, List.mem_cons_self _ _, full, hfmt, hext, rfl, ?_⟩
          · rw [List.length_take]
            exact Nat.min_le_left _ _
          · simp
      · rw [billTextLoop, if_pos (by simp [bool_eq_false hfmt])] at h
        rcases ih.1 r h with ⟨hlen, d, hd, full, hrest⟩
        exact ⟨hlen, d, List.mem_cons_of_mem doc hd, full, hrest⟩
    · intro hall
      by_cases hfmt : fmtOk doc = true
      · rw [billTextLoop, if_neg (by simp [hfmt]),
          hall doc (List.mem_cons_self _ _) hfmt]
        exact ih.2 fun d hd hf => hall d (List.mem_cons_of_mem doc hd) hf
      · rw [billTextLoop, if_pos (by simp [bool_eq_false hfmt])]
        exact ih.2 fun d hd hf => hall d (List.mem_cons_of_mem doc hd) hf

/-- C5: whenever `get_bill_text` returns a result, its text is the
untruncated extracted text of one of the bill's (ranked, PDF/PPT) documents
cut to the first `max_chars` characters — so its length never exceeds
`max_chars` — and `truncated` is true iff the untruncated text was strictly
longer; when every candidate document fails or yields empty text the
function returns `none` rather than raising. -/
theorem C5_bill_text_truncation :
    ∀ (bill_id : Int) (docRows : List DocRow)
      (fetch : DocOut → Option (List (Option Str))) (max_chars : Nat),
      (∀ r : BillText,
        get_bill_text bill_id docRows fetch max_chars = some r →
        r.text.length ≤ max_chars ∧
        ∃ doc ∈ get_bill_documents bill_id docRows, ∃ full : Str,
          fmtOk doc = true ∧ docExtract fetch doc = some full ∧
          r.text = full.take max_chars ∧
          (r.truncated = true ↔ max_chars < full.length)) ∧
      ((∀ doc ∈ get_bill_documents bill_id docRows,
          fmtOk doc = true → docExtract fetch doc = none) →
        get_bill_text bill_id docRows fetch max_chars = none) := by
  intro bill_id docRows fetch max_chars
  exact billTextLoop_spec bill_id fetch max_chars
    (get_bill_documents bill_id docRows)

/-- Witness for `C5_bill_text_truncation` at concrete inputs: a 4-character
extraction under a 2-character budget is returned truncated to length 2, and
an always-failing oracle yields `none`. -/
theorem C5_witness :
    get_bill_text 5
        [{ Id := 1, ApplicationDesc := some "PDF".data,
           FilePath := some "p".data }]
        (fun _ => some [some "אבגד".data]) 2 =
      some { bill_id := 5, doc_id := 1, group := none, url := "p".data,
             text := "אב".data, truncated := true } ∧
    ({ bill_id := 5, doc_id := 1, group := none, url := "p".data,
       text := "אב".data, truncated := true : BillText }).text.length ≤ 2 ∧
    get_bill_text 5
        [{ Id := 1, ApplicationDesc := some "PDF".data,
           FilePath := some "p".data }]
        (fun _ => none) 2 = none :=
  ⟨by decide,
    ((C5_bill_text_truncation 5
        [{ Id := 1, ApplicationDesc := some "PDF".data,
           FilePath := some "p".data }]
        (fun _ => some [some "אבגד".data]) 2).1
      { bill_id := 5, doc_id := 1, group := none, url := "p".data,
        text := "אב".data, truncated := true } (by decide)).1,
    (C5_bill_text_truncation 5
        [{ Id := 1, ApplicationDesc := some "PDF".data,
           FilePath := some "p".data }]
        (fun _ => none) 2).2 (fun doc hd hf => rfl)⟩
